import Mathlib

/-!
Verification of the V-trace target computation
(`parl/algorithms/paddle/impala/vtrace.py`, `from_importance_weights`).

A `[T, B]` float tensor is modelled as a `List (List ℝ)` (outer list the
time axis, inner lists the batch rows), a `[B]` tensor as a `List ℝ`.
Elementwise tensor arithmetic on equally shaped tensors is `List.zipWith`.
A clip threshold is an optional scalar; since a Python float may be
infinite, the scalar is modelled as `EReal`.
-/

noncomputable section

abbrev Row := List ℝ

abbrev Arr := List (List ℝ)

/-- Elementwise sum of two batch rows. -/
def addV (x y : Row) : Row := List.zipWith (· + ·) x y

/-- Elementwise difference of two batch rows. -/
def subV (x y : Row) : Row := List.zipWith (· - ·) x y

/-- Elementwise product of two batch rows. -/
def mulV (x y : Row) : Row := List.zipWith (· * ·) x y

/-- Elementwise binary operation on two `[T, B]` arrays. -/
def map2arr (f : ℝ → ℝ → ℝ) (X Y : Arr) : Arr := List.zipWith (List.zipWith f) X Y

/-- Elementwise sum of two `[T, B]` arrays. -/
def add2 (X Y : Arr) : Arr := map2arr (· + ·) X Y

/-- Elementwise difference of two `[T, B]` arrays. -/
def sub2 (X Y : Arr) : Arr := map2arr (· - ·) X Y

/-- Elementwise product of two `[T, B]` arrays. -/
def mul2 (X Y : Arr) : Arr := map2arr (· * ·) X Y

/-- Elementwise unary map over a `[T, B]` array. -/
def map2D (f : ℝ → ℝ) (X : Arr) : Arr := X.map (List.map f)

/-- Paddle clip with only an upper bound, `paddle.clip(x, max=m)`: clip
from above at `m`.  The threshold is an `EReal` since a Python float
threshold may be `inf`. -/
def clipMax (x : ℝ) (m : EReal) : ℝ := if (x : EReal) ≤ m then x else m.toReal

/-- Entry of a `[T, B]` array at time `t`, batch lane `b` (0 outside). -/
def entry (X : Arr) (t b : ℕ) : ℝ := (X.getD t []).getD b 0

/-- Source line 90-95: the entry assertions of `from_importance_weights`.
They compare only the *ranks* (`len(x.shape)`) of the inputs; shapes are
`List ℕ`.  Returns `true` when every assertion passes. -/
def entry_assertions (behaviour_shape target_shape values_shape
    bootstrap_shape discounts_shape rewards_shape : List ℕ) : Bool :=
  (target_shape.length == behaviour_shape.length) &&
  (values_shape.length == behaviour_shape.length) &&
  (bootstrap_shape.length == behaviour_shape.length - 1) &&
  (discounts_shape.length == behaviour_shape.length) &&
  (rewards_shape.length == behaviour_shape.length)

/-- Source line 99: `log_rhos = target_actions_log_probs - behaviour_actions_log_probs`. -/
def log_rhos (behaviour target : Arr) : Arr := sub2 target behaviour

/-- Source line 101: `rhos = paddle.exp(log_rhos)`. -/
def rhos (behaviour target : Arr) : Arr := map2D Real.exp (log_rhos behaviour target)

/-- Source lines 102-105: `clipped_rhos`, the importance weights clipped
from above at `clip_rho_threshold` when it is present. -/
def clipped_rhos (behaviour target : Arr) (clip_rho_threshold : Option EReal) : Arr :=
  match clip_rho_threshold with
  | some c => map2D (fun x => clipMax x c) (rhos behaviour target)
  | none => rhos behaviour target

/-- Source line 107: `cs = paddle.clip(rhos, max=1.0)`. -/
def cs (behaviour target : Arr) : Arr :=
  map2D (fun x => clipMax x ((1 : ℝ) : EReal)) (rhos behaviour target)

/-- Source lines 110-111: `values_t_plus_1 = concat([values[1:], unsqueeze(bootstrap_value, 0)])`. -/
def values_t_plus_1 (values : Arr) (bootstrap_value : Row) : Arr :=
  values.tail ++ [bootstrap_value]

/-- Source line 114: `deltas = clipped_rhos * (rewards + discounts * values_t_plus_1 - values)`. -/
def deltas (behaviour target discounts rewards values : Arr) (bootstrap_value : Row)
    (clip_rho_threshold : Option EReal) : Arr :=
  mul2 (clipped_rhos behaviour target clip_rho_threshold)
    (sub2 (add2 rewards (mul2 discounts (values_t_plus_1 values bootstrap_value))) values)

/-- Source lines 116-122: the backward loop
`for t in range(T-1, -1, -1): acc = deltas[t] + discounts[t] * cs[t] * acc`,
collecting the accumulator at each step and reversing.  Rendered
structurally: the row at time `t` is `deltas[t] + discounts[t] * cs[t] *`
(the row at time `t+1`, or the initial zero accumulator past the end). -/
def scanBack : Arr → Arr → Arr → Row → Arr
  | d :: ds, g :: gs, c :: cls, z =>
      let rest := scanBack ds gs cls z
      addV d (mulV (mulV g c) (rest.headD z)) :: rest
  | _, _, _, _ => []

/-- Source lines 116-122: `vs_minus_v_xs`, the stacked backward scan started
from `paddle.zeros_like(bootstrap_value)`. -/
def vs_minus_v_xs (behaviour target discounts rewards values : Arr) (bootstrap_value : Row)
    (clip_rho_threshold : Option EReal) : Arr :=
  scanBack (deltas behaviour target discounts rewards values bootstrap_value clip_rho_threshold)
    discounts (cs behaviour target) (List.replicate bootstrap_value.length 0)

/-- Source line 125: `vs = paddle.add(vs_minus_v_xs, values)`. -/
def vs (behaviour target discounts rewards values : Arr) (bootstrap_value : Row)
    (clip_rho_threshold : Option EReal) : Arr :=
  add2 (vs_minus_v_xs behaviour target discounts rewards values bootstrap_value
    clip_rho_threshold) values

/-- Source lines 128-129: `vs_t_plus_1 = concat([vs[1:], unsqueeze(bootstrap_value, 0)])`. -/
def vs_t_plus_1 (behaviour target discounts rewards values : Arr) (bootstrap_value : Row)
    (clip_rho_threshold : Option EReal) : Arr :=
  (vs behaviour target discounts rewards values bootstrap_value clip_rho_threshold).tail
    ++ [bootstrap_value]

/-- Source lines 131-134: `clipped_pg_rhos`, the importance weights clipped
from above at `clip_pg_rho_threshold` when it is present. -/
def clipped_pg_rhos (behaviour target : Arr) (clip_pg_rho_threshold : Option EReal) : Arr :=
  match clip_pg_rho_threshold with
  | some c => map2D (fun x => clipMax x c) (rhos behaviour target)
  | none => rhos behaviour target

/-- Source lines 136-137: `pg_advantages = clipped_pg_rhos * (rewards + discounts * vs_t_plus_1 - values)`. -/
def pg_advantages (behaviour target discounts rewards values : Arr) (bootstrap_value : Row)
    (clip_rho_threshold clip_pg_rho_threshold : Option EReal) : Arr :=
  mul2 (clipped_pg_rhos behaviour target clip_pg_rho_threshold)
    (sub2 (add2 rewards (mul2 discounts (vs_t_plus_1 behaviour target discounts rewards values
      bootstrap_value clip_rho_threshold))) values)

/-- The named-tuple result `VTraceReturns(vs, pg_advantages)` (source lines 31-32). -/
structure VTraceReturns where
  vs : Arr
  pg_advantages : Arr

/-- Source line 43: the default value of `clip_rho_threshold` is `1.0`. -/
def clip_rho_threshold_default : Option EReal := some ((1 : ℝ) : EReal)

/-- Source line 44: the default value of `clip_pg_rho_threshold` is `1.0`. -/
def clip_pg_rho_threshold_default : Option EReal := some ((1 : ℝ) : EReal)

/-- The backward recurrence of the specification, written with explicit time indices:
`acc_T` is the zero vector and `acc_t = deltas[t] + discounts[t] * cs[t] * acc_{t+1}`.
`spec_acc T dels gs cls z k` is `acc_{T-k}` (so `k` counts steps back from
the end; `z` is the zero vector used for `acc_T`). -/
def spec_acc (T : ℕ) (dels gs cls : Arr) (z : Row) : ℕ → Row
  | 0 => z
  | k + 1 =>
      addV (dels.getD (T - (k + 1)) [])
        (mulV (mulV (gs.getD (T - (k + 1)) []) (cls.getD (T - (k + 1)) []))
          (spec_acc T dels gs cls z k))

/-- The specification form of `vs_minus_v_xs`: the sequence `acc_0, acc_1, ..., acc_{T-1}`
of the backward recurrence, ordered by increasing `t`. -/
def spec_vs_minus_v_xs (T : ℕ) (dels gs cls : Arr) (z : Row) : Arr :=
  (List.range T).map fun t => spec_acc T dels gs cls z (T - t)

/-- Source lines 37-139: `from_importance_weights`.  (The entry assertions
compare ranks only; in this list model the ranks 2 and 1 are fixed by the
types, so they are modelled separately as `entry_assertions`.) -/
def from_importance_weights (behaviour_actions_log_probs target_actions_log_probs
    discounts rewards values : Arr) (bootstrap_value : Row)
    (clip_rho_threshold clip_pg_rho_threshold : Option EReal) : VTraceReturns :=
  { vs := vs behaviour_actions_log_probs target_actions_log_probs discounts rewards values
      bootstrap_value clip_rho_threshold
    pg_advantages := pg_advantages behaviour_actions_log_probs target_actions_log_probs
      discounts rewards values bootstrap_value clip_rho_threshold clip_pg_rho_threshold }

/-! ### Basic list lemmas -/

theorem getD_map2D (f : ℝ → ℝ) (X : Arr) (t : ℕ) :
    (map2D f X).getD t [] = (X.getD t []).map f := by
  induction X generalizing t with
  | nil => simp [map2D]
  | cons r X ih =>
    cases t with
    | zero => simp [map2D]
    | succ t => simpa [map2D] using ih t

theorem getD_zipWith {α β γ : Type} (f : α → β → γ) (xs : List α) (ys : List β)
    (n : ℕ) (da : α) (db : β) (dc : γ) (h1 : n < xs.length) (h2 : n < ys.length) :
    (List.zipWith f xs ys).getD n dc = f (xs.getD n da) (ys.getD n db) := by
  induction xs generalizing ys n with
  | nil => simp at h1
  | cons x xs ih =>
    cases ys with
    | nil => simp at h2
    | cons y ys =>
      cases n with
      | zero => simp
      | succ n =>
        simp only [List.zipWith_cons_cons, List.getD_cons_succ]
        exact ih ys n (by simpa using h1) (by simpa using h2)

theorem getD_map2arr (f : ℝ → ℝ → ℝ) (X Y : Arr) (t : ℕ)
    (h1 : t < X.length) (h2 : t < Y.length) :
    (map2arr f X Y).getD t [] = List.zipWith f (X.getD t []) (Y.getD t []) := by
  exact getD_zipWith (List.zipWith f) X Y t [] [] [] h1 h2

theorem getD_tail {α : Type} (l : List α) (n : ℕ) (d : α) :
    l.tail.getD n d = l.getD (n + 1) d := by
  cases l <;> simp

theorem getD_append_lt {α : Type} (l₁ l₂ : List α) (n : ℕ) (d : α) (h : n < l₁.length) :
    (l₁ ++ l₂).getD n d = l₁.getD n d := by
  induction l₁ generalizing n with
  | nil => simp at h
  | cons x l₁ ih =>
    cases n with
    | zero => simp
    | succ n => simpa using ih n (by simpa using h)

theorem getD_append_ge {α : Type} (l₁ l₂ : List α) (n : ℕ) (d : α) (h : l₁.length ≤ n) :
    (l₁ ++ l₂).getD n d = l₂.getD (n - l₁.length) d := by
  induction l₁ generalizing n with
  | nil => simp
  | cons x l₁ ih =>
    cases n with
    | zero => simp at h
    | succ n => simpa using ih n (by simpa using h)

theorem headD_eq_getD {α : Type} (l : List α) (d : α) : l.headD d = l.getD 0 d := by
  cases l <;> rfl

theorem getD_mem {α : Type} (l : List α) (n : ℕ) (d : α) (h : n < l.length) :
    l.getD n d ∈ l := by
  rw [List.getD_eq_getElem l d h]
  exact List.getElem_mem h

/-! ### Rows of zeros -/

theorem mulV_zeros_right (x : Row) (B : ℕ) (h : x.length = B) :
    mulV x (List.replicate B 0) = List.replicate B 0 := by
  induction x generalizing B with
  | nil => simp_all [mulV]
  | cons a x ih =>
    cases B with
    | zero => simp at h
    | succ B =>
      simp only [List.replicate_succ, mulV, List.zipWith_cons_cons, mul_zero]
      exact congrArg _ (ih B (by simpa using h))

theorem mulV_zeros_left (x : Row) (B : ℕ) (h : x.length = B) :
    mulV (List.replicate B 0) x = List.replicate B 0 := by
  induction x generalizing B with
  | nil => simp_all [mulV]
  | cons a x ih =>
    cases B with
    | zero => simp at h
    | succ B =>
      simp only [List.replicate_succ, mulV, List.zipWith_cons_cons, zero_mul]
      exact congrArg _ (ih B (by simpa using h))

theorem addV_zeros_right (x : Row) (B : ℕ) (h : x.length = B) :
    addV x (List.replicate B 0) = x := by
  induction x generalizing B with
  | nil => simp [addV]
  | cons a x ih =>
    cases B with
    | zero => simp at h
    | succ B =>
      simp only [List.replicate_succ, addV, List.zipWith_cons_cons, add_zero]
      exact congrArg _ (ih B (by simpa using h))

theorem addV_zeros_left (x : Row) (B : ℕ) (h : x.length = B) :
    addV (List.replicate B 0) x = x := by
  induction x generalizing B with
  | nil => simp [addV]
  | cons a x ih =>
    cases B with
    | zero => simp at h
    | succ B =>
      simp only [List.replicate_succ, addV, List.zipWith_cons_cons, zero_add]
      exact congrArg _ (ih B (by simpa using h))

/-! ### Lengths -/

theorem rhos_length (bl tl : Arr) : (rhos bl tl).length = min tl.length bl.length := by
  simp [rhos, log_rhos, sub2, map2arr, map2D]

theorem clipped_rhos_length (bl tl : Arr) (c : Option EReal) :
    (clipped_rhos bl tl c).length = min tl.length bl.length := by
  cases c <;> simp [clipped_rhos, map2D, rhos_length, rhos, log_rhos, sub2, map2arr]

theorem clipped_pg_rhos_length (bl tl : Arr) (c : Option EReal) :
    (clipped_pg_rhos bl tl c).length = min tl.length bl.length := by
  cases c <;> simp [clipped_pg_rhos, map2D, rhos_length, rhos, log_rhos, sub2, map2arr]

theorem cs_length (bl tl : Arr) : (cs bl tl).length = min tl.length bl.length := by
  simp [cs, map2D, rhos_length, rhos, log_rhos, sub2, map2arr]

theorem values_t_plus_1_length (vals : Arr) (boot : Row) :
    (values_t_plus_1 vals boot).length = vals.length - 1 + 1 := by
  simp [values_t_plus_1]

theorem scanBack_length (dels gs cls : Arr) (z : Row) :
    (scanBack dels gs cls z).length = min dels.length (min gs.length cls.length) := by
  induction dels generalizing gs cls with
  | nil => simp [scanBack]
  | cons d dels ih =>
    cases gs with
    | nil => simp [scanBack]
    | cons g gs =>
      cases cls with
      | nil => simp [scanBack]
      | cons c cls =>
        simp only [scanBack, List.length_cons, ih]
        omega

theorem deltas_length (bl tl ds rs vals : Arr) (boot : Row) (c : Option EReal) (T : ℕ)
    (hbl : bl.length = T) (htl : tl.length = T) (hds : ds.length = T) (hrs : rs.length = T)
    (hvals : vals.length = T) (hT : 1 ≤ T) :
    (deltas bl tl ds rs vals boot c).length = T := by
  simp only [deltas, mul2, add2, sub2, map2arr, List.length_zipWith, clipped_rhos_length,
    values_t_plus_1_length, htl, hbl, hds, hrs, hvals]
  omega

theorem vs_length (bl tl ds rs vals : Arr) (boot : Row) (c : Option EReal) (T : ℕ)
    (hbl : bl.length = T) (htl : tl.length = T) (hds : ds.length = T) (hrs : rs.length = T)
    (hvals : vals.length = T) (hT : 1 ≤ T) :
    (vs bl tl ds rs vals boot c).length = T := by
  simp only [vs, add2, map2arr, List.length_zipWith, vs_minus_v_xs, scanBack_length,
    deltas_length bl tl ds rs vals boot c T hbl htl hds hrs hvals hT, cs_length,
    htl, hbl, hds, hvals]
  omega

/-! ### The backward loop agrees with the indexed recurrence of the specification -/

theorem spec_acc_cons (d0 g0 c0 : Row) (dels gs cls : Arr) (z : Row) (T k : ℕ) (hk : k ≤ T) :
    spec_acc (T + 1) (d0 :: dels) (g0 :: gs) (c0 :: cls) z k = spec_acc T dels gs cls z k := by
  induction k with
  | zero => rfl
  | succ k ih =>
    have h1 : T + 1 - (k + 1) = T - (k + 1) + 1 := by omega
    simp only [spec_acc, h1, List.getD_cons_succ]
    rw [ih (by omega)]

theorem spec_vs_minus_v_xs_headD (dels gs cls : Arr) (z : Row) (T : ℕ) :
    (spec_vs_minus_v_xs T dels gs cls z).headD z = spec_acc T dels gs cls z T := by
  cases T with
  | zero => rfl
  | succ S =>
    simp only [spec_vs_minus_v_xs, List.range_succ_eq_map, List.map_cons, List.headD_cons,
      Nat.sub_zero]

theorem scanBack_eq_spec (dels gs cls : Arr) (z : Row)
    (hg : gs.length = dels.length) (hc : cls.length = dels.length) :
    scanBack dels gs cls z = spec_vs_minus_v_xs dels.length dels gs cls z := by
  induction dels generalizing gs cls with
  | nil =>
    have hg0 : gs = [] := List.length_eq_zero.mp (by simpa using hg)
    have hc0 : cls = [] := List.length_eq_zero.mp (by simpa using hc)
    subst hg0; subst hc0
    simp [scanBack, spec_vs_minus_v_xs]
  | cons d dels ih =>
    cases gs with
    | nil => simp at hg
    | cons g gs =>
      cases cls with
      | nil => simp at hc
      | cons c cls =>
        have hg' : gs.length = dels.length := by simpa using hg
        have hc' : cls.length = dels.length := by simpa using hc
        have hrest := ih gs cls hg' hc'
        simp only [scanBack, List.length_cons, spec_vs_minus_v_xs, List.range_succ_eq_map,
          List.map_cons, List.map_map, Nat.sub_zero]
        refine List.cons_eq_cons.mpr ⟨?_, ?_⟩
        · -- the head: acc at t = 0
          have hT : dels.length + 1 - (dels.length + 1) = 0 := by omega
          simp only [spec_acc, hT, List.getD_cons_zero]
          rw [spec_acc_cons d g c dels gs cls z dels.length dels.length le_rfl]
          rw [hrest, spec_vs_minus_v_xs_headD]
        · -- the tail: acc at t = 1, ..., T
          rw [hrest]
          simp only [spec_vs_minus_v_xs]
          apply List.map_congr_left
          intro t ht
          have ht' : t < dels.length := List.mem_range.mp ht
          have h1 : dels.length + 1 - Nat.succ t = dels.length - t := by omega
          simp only [Function.comp, h1]
          exact (spec_acc_cons d g c dels gs cls z dels.length (dels.length - t) (by omega)).symm

/-! ### Clipping -/

theorem clipMax_coe (x c : ℝ) : clipMax x ((c : ℝ) : EReal) = min x c := by
  simp [clipMax, EReal.coe_le_coe_iff, min_def]

theorem clipMax_top (x : ℝ) : clipMax x ⊤ = x := by
  simp [clipMax]

theorem clipMax_one (x : ℝ) : clipMax x (1 : EReal) = min x 1 := by
  rw [← EReal.coe_one, clipMax_coe]

theorem cs_min (bl tl : Arr) : cs bl tl = map2D (fun x => min x 1) (rhos bl tl) := by
  simp only [cs, clipMax_coe]

theorem clipped_rhos_top (bl tl : Arr) :
    clipped_rhos bl tl (some ⊤) = clipped_rhos bl tl none := by
  simp [clipped_rhos, clipMax_top, map2D]

theorem clipped_pg_rhos_top (bl tl : Arr) :
    clipped_pg_rhos bl tl (some ⊤) = clipped_pg_rhos bl tl none := by
  simp [clipped_pg_rhos, clipMax_top, map2D]

/-! ### Rows -/

theorem getD_irrel {α : Type} (l : List α) (n : ℕ) (d d' : α) (h : n < l.length) :
    l.getD n d = l.getD n d' := by
  rw [List.getD_eq_getElem l d h, List.getD_eq_getElem l d' h]

theorem getD_map_lt {α β : Type} (f : α → β) (l : List α) (n : ℕ) (da : α) (db : β)
    (h : n < l.length) : (l.map f).getD n db = f (l.getD n da) := by
  rw [List.getD_eq_getElem l da h, List.getD_eq_getElem (l.map f) db (by simpa using h)]
  simp

theorem mem_zipWith {α β γ : Type} {g : α → β → γ} {X : List α} {Y : List β} {r : γ}
    (h : r ∈ List.zipWith g X Y) : ∃ x ∈ X, ∃ y ∈ Y, r = g x y := by
  induction X generalizing Y with
  | nil => simp at h
  | cons x X ih =>
    cases Y with
    | nil => simp at h
    | cons y Y =>
      simp only [List.zipWith_cons_cons, List.mem_cons] at h
      rcases h with h | h
      · exact ⟨x, List.mem_cons_self x X, y, List.mem_cons_self y Y, h⟩
      · obtain ⟨x', hx', y', hy', rfl⟩ := ih h
        exact ⟨x', List.mem_cons_of_mem x hx', y', List.mem_cons_of_mem y hy', rfl⟩

theorem rows_map2arr (f : ℝ → ℝ → ℝ) (X Y : Arr) (B : ℕ)
    (hx : ∀ r ∈ X, r.length = B) (hy : ∀ r ∈ Y, r.length = B) :
    ∀ r ∈ map2arr f X Y, r.length = B := by
  intro r hr
  obtain ⟨x, hxm, y, hym, rfl⟩ := mem_zipWith hr
  simp [List.length_zipWith, hx x hxm, hy y hym]

theorem rows_map2D (f : ℝ → ℝ) (X : Arr) (B : ℕ) (hx : ∀ r ∈ X, r.length = B) :
    ∀ r ∈ map2D f X, r.length = B := by
  intro r hr
  obtain ⟨x, hxm, rfl⟩ := List.mem_map.mp hr
  simp [hx x hxm]

theorem rows_rhos (bl tl : Arr) (B : ℕ)
    (hbl : ∀ r ∈ bl, r.length = B) (htl : ∀ r ∈ tl, r.length = B) :
    ∀ r ∈ rhos bl tl, r.length = B :=
  rows_map2D _ _ B (rows_map2arr _ _ _ B htl hbl)

theorem rows_clipped_rhos (bl tl : Arr) (c : Option EReal) (B : ℕ)
    (hbl : ∀ r ∈ bl, r.length = B) (htl : ∀ r ∈ tl, r.length = B) :
    ∀ r ∈ clipped_rhos bl tl c, r.length = B := by
  cases c with
  | none => exact rows_rhos bl tl B hbl htl
  | some m => exact rows_map2D _ _ B (rows_rhos bl tl B hbl htl)

theorem rows_clipped_pg_rhos (bl tl : Arr) (c : Option EReal) (B : ℕ)
    (hbl : ∀ r ∈ bl, r.length = B) (htl : ∀ r ∈ tl, r.length = B) :
    ∀ r ∈ clipped_pg_rhos bl tl c, r.length = B := by
  cases c with
  | none => exact rows_rhos bl tl B hbl htl
  | some m => exact rows_map2D _ _ B (rows_rhos bl tl B hbl htl)

theorem rows_cs (bl tl : Arr) (B : ℕ)
    (hbl : ∀ r ∈ bl, r.length = B) (htl : ∀ r ∈ tl, r.length = B) :
    ∀ r ∈ cs bl tl, r.length = B :=
  rows_map2D _ _ B (rows_rhos bl tl B hbl htl)

theorem rows_values_t_plus_1 (vals : Arr) (boot : Row) (B : ℕ)
    (hvals : ∀ r ∈ vals, r.length = B) (hboot : boot.length = B) :
    ∀ r ∈ values_t_plus_1 vals boot, r.length = B := by
  intro r hr
  rcases List.mem_append.mp hr with h | h
  · exact hvals r (List.mem_of_mem_tail h)
  · rw [List.mem_singleton.mp h]
    exact hboot

theorem rows_deltas (bl tl ds rs vals : Arr) (boot : Row) (c : Option EReal) (B : ℕ)
    (hbl : ∀ r ∈ bl, r.length = B) (htl : ∀ r ∈ tl, r.length = B)
    (hds : ∀ r ∈ ds, r.length = B) (hrs : ∀ r ∈ rs, r.length = B)
    (hvals : ∀ r ∈ vals, r.length = B) (hboot : boot.length = B) :
    ∀ r ∈ deltas bl tl ds rs vals boot c, r.length = B :=
  rows_map2arr _ _ _ B (rows_clipped_rhos bl tl c B hbl htl)
    (rows_map2arr _ _ _ B
      (rows_map2arr _ _ _ B hrs
        (rows_map2arr _ _ _ B hds (rows_values_t_plus_1 vals boot B hvals hboot)))
      hvals)

theorem scanBack_rows (dels gs cls : Arr) (z : Row) (B : ℕ)
    (hd : ∀ r ∈ dels, r.length = B) (hg : ∀ r ∈ gs, r.length = B)
    (hc : ∀ r ∈ cls, r.length = B) (hz : z.length = B) :
    ∀ r ∈ scanBack dels gs cls z, r.length = B := by
  induction dels generalizing gs cls with
  | nil => intro r hr; simp [scanBack] at hr
  | cons d dels ih =>
    cases gs with
    | nil => intro r hr; simp [scanBack] at hr
    | cons g gs =>
      cases cls with
      | nil => intro r hr; simp [scanBack] at hr
      | cons c cls =>
        have hrest : ∀ r ∈ scanBack dels gs cls z, r.length = B :=
          ih gs cls (fun r hr => hd r (List.mem_cons_of_mem d hr))
            (fun r hr => hg r (List.mem_cons_of_mem g hr))
            (fun r hr => hc r (List.mem_cons_of_mem c hr))
        have hhd : ((scanBack dels gs cls z).headD z).length = B := by
          cases hsc : scanBack dels gs cls z with
          | nil => exact hz
          | cons a rest => exact hrest a (by rw [hsc]; exact List.mem_cons_self a rest)
        intro r hr
        simp only [scanBack, List.mem_cons] at hr
        rcases hr with rfl | hr
        · have h1 := hd d (List.mem_cons_self d dels)
          have h2 := hg g (List.mem_cons_self g gs)
          have h3 := hc c (List.mem_cons_self c cls)
          simp only [addV, mulV, List.length_zipWith, h1, h2, h3, hhd]
          omega
        · exact hrest r hr

theorem scanBack_headD_len (dels gs cls : Arr) (z : Row) (B : ℕ)
    (hd : ∀ r ∈ dels, r.length = B) (hg : ∀ r ∈ gs, r.length = B)
    (hc : ∀ r ∈ cls, r.length = B) (hz : z.length = B) :
    ((scanBack dels gs cls z).headD z).length = B := by
  cases hsc : scanBack dels gs cls z with
  | nil => exact hz
  | cons a rest =>
    exact scanBack_rows dels gs cls z B hd hg hc hz a
      (by rw [hsc]; exact List.mem_cons_self a rest)

/-! ### Claims -/

/-- C1: for every valid input (all `[T,B]` arrays of length `T ≥ 1`), the
`vs` output of `from_importance_weights` equals `values` plus the sequence
`vs_minus_v_xs` given by the backward recurrence of the specification,
`acc_t = deltas[t] + discounts[t] * cs[t] * acc_{t+1}` with `acc_T = 0`,
where `deltas` is the clipped TD residual built from
`rhos = exp(target_log_probs - behaviour_log_probs)`. -/
theorem vtrace_vs_eq_spec_recurrence (bl tl ds rs vals : Arr) (boot : Row)
    (c₁ c₂ : Option EReal) (T : ℕ) (hT : 1 ≤ T)
    (hbl : bl.length = T) (htl : tl.length = T) (hds : ds.length = T)
    (hrs : rs.length = T) (hvals : vals.length = T) :
    (from_importance_weights bl tl ds rs vals boot c₁ c₂).vs =
      add2 (spec_vs_minus_v_xs T (deltas bl tl ds rs vals boot c₁) ds (cs bl tl)
        (List.replicate boot.length 0)) vals := by
  have hdl : (deltas bl tl ds rs vals boot c₁).length = T :=
    deltas_length bl tl ds rs vals boot c₁ T hbl htl hds hrs hvals hT
  have h1 : ds.length = (deltas bl tl ds rs vals boot c₁).length := by rw [hdl, hds]
  have h2 : (cs bl tl).length = (deltas bl tl ds rs vals boot c₁).length := by
    rw [hdl, cs_length, htl, hbl]
    omega
  show vs bl tl ds rs vals boot c₁ = _
  rw [vs, vs_minus_v_xs, scanBack_eq_spec _ _ _ _ h1 h2, hdl]

/-- C1 witness: the theorem applied at a concrete one-step input. -/
theorem vtrace_vs_eq_spec_recurrence_witness :
    (from_importance_weights [[(0 : ℝ)]] [[(0 : ℝ)]] [[(1 : ℝ)]] [[(1 : ℝ)]] [[(1 : ℝ)]]
        [(1 : ℝ)] none none).vs =
      add2 (spec_vs_minus_v_xs 1
        (deltas [[(0 : ℝ)]] [[(0 : ℝ)]] [[(1 : ℝ)]] [[(1 : ℝ)]] [[(1 : ℝ)]] [(1 : ℝ)] none)
        [[(1 : ℝ)]] (cs [[(0 : ℝ)]] [[(0 : ℝ)]])
        (List.replicate ([(1 : ℝ)] : Row).length 0)) [[(1 : ℝ)]] :=
  vtrace_vs_eq_spec_recurrence [[(0 : ℝ)]] [[(0 : ℝ)]] [[(1 : ℝ)]] [[(1 : ℝ)]] [[(1 : ℝ)]]
    [(1 : ℝ)] none none 1 le_rfl rfl rfl rfl rfl rfl

/-- C3: the trace-cutting coefficient `cs` equals `min(rhos, 1.0)`
elementwise.  (`cs` is a function of the log-probabilities alone — its
definition, like source line 107, takes neither clip threshold, so it
cannot depend on `clip_rho_threshold` or `clip_pg_rho_threshold`.) -/
theorem cs_eq_min_rhos_one (bl tl : Arr) :
    cs bl tl = map2D (fun x => min x 1) (rhos bl tl) :=
  cs_min bl tl

/-- C5: the default thresholds are `1.0`, not "absent": under the default
arguments `clipped_rhos`, `clipped_pg_rhos` and `cs` all equal
`min(rhos, 1.0)` elementwise, and there is an input on which the default
differs from passing the threshold as absent (`none`). -/
theorem default_thresholds_are_one :
    clip_rho_threshold_default = some ((1 : ℝ) : EReal) ∧
    clip_pg_rho_threshold_default = some ((1 : ℝ) : EReal) ∧
    (∀ bl tl : Arr,
      clipped_rhos bl tl clip_rho_threshold_default = map2D (fun x => min x 1) (rhos bl tl) ∧
      clipped_pg_rhos bl tl clip_pg_rho_threshold_default
        = map2D (fun x => min x 1) (rhos bl tl) ∧
      cs bl tl = map2D (fun x => min x 1) (rhos bl tl)) ∧
    clipped_rhos [[(0 : ℝ)]] [[Real.log 2]] clip_rho_threshold_default ≠
      clipped_rhos [[(0 : ℝ)]] [[Real.log 2]] none := by
  refine ⟨rfl, rfl, fun bl tl => ⟨?_, ?_, cs_min bl tl⟩, ?_⟩
  · simp only [clipped_rhos, clip_rho_threshold_default, clipMax_coe]
  · simp only [clipped_pg_rhos, clip_pg_rho_threshold_default, clipMax_coe]
  · intro h
    have h2 : Real.exp (Real.log 2 - 0) = 2 := by
      rw [sub_zero, Real.exp_log]
      norm_num
    simp only [clipped_rhos, clip_rho_threshold_default, clipMax_coe, rhos, log_rhos, sub2,
      map2arr, map2D, List.zipWith_cons_cons, List.zipWith_nil_right, List.map_cons,
      List.map_nil, h2] at h
    have h3 : min (2 : ℝ) 1 = 2 := by
      have h4 := congrArg (fun X => entry X 0 0) h
      simp [entry] at h4
    norm_num at h3

/-- C4 counterexample: the entry assertions accept an input whose `values`
shape `[2, 1]` disagrees with the `[2, 3]` shape of the other inputs (a
contract violation that paddle would then silently broadcast), so contract
violations are not all detected at call entry. -/
theorem entry_assertions_accept_shape_mismatch :
    entry_assertions [2, 3] [2, 3] [2, 1] [3] [2, 3] [2, 3] = true := by decide

/-- C4 amended: the entry checks detect exactly the rank mismatches — they
pass if and only if the four other `[T,B]` inputs have the rank of
`behaviour_log_probs` and `bootstrap_value` has rank one less.  Same-rank
shape mismatches pass them, and the clip thresholds are never inspected. -/
theorem entry_assertions_check_rank_only (sb st sv sboot sd sr : List ℕ) :
    entry_assertions sb st sv sboot sd sr = true ↔
      (st.length = sb.length ∧ sv.length = sb.length ∧
        sboot.length = sb.length - 1 ∧ sd.length = sb.length ∧ sr.length = sb.length) := by
  simp [entry_assertions, Bool.and_eq_true, beq_iff_eq, and_assoc]

/-- C8: calling with both clip thresholds absent gives exactly the same
`(vs, pg_advantages)` pair as calling with both thresholds `+∞`. -/
theorem absent_thresholds_eq_top (bl tl ds rs vals : Arr) (boot : Row) :
    from_importance_weights bl tl ds rs vals boot (some ⊤) (some ⊤) =
      from_importance_weights bl tl ds rs vals boot none none := by
  simp only [from_importance_weights, pg_advantages, vs_t_plus_1, vs, vs_minus_v_xs, deltas,
    clipped_rhos_top, clipped_pg_rhos_top]

/-- C2: each row of `pg_advantages` equals
`clipped_pg_rhos[t] * (rewards[t] + discounts[t] * vs_t_plus_1[t] - values[t])`,
where `vs_t_plus_1[t]` is `vs[t+1]` for `t < T-1` and `bootstrap_value` at
`t = T-1`, and `clipped_pg_rhos` uses the independent threshold `c₂`. -/
theorem pg_advantages_row (bl tl ds rs vals : Arr) (boot : Row) (c₁ c₂ : Option EReal)
    (T t : ℕ) (hbl : bl.length = T) (htl : tl.length = T) (hds : ds.length = T)
    (hrs : rs.length = T) (hvals : vals.length = T) (ht : t < T) :
    (from_importance_weights bl tl ds rs vals boot c₁ c₂).pg_advantages.getD t [] =
      mulV ((clipped_pg_rhos bl tl c₂).getD t [])
        (subV (addV (rs.getD t [])
          (mulV (ds.getD t [])
            (if t + 1 = T then boot
             else (from_importance_weights bl tl ds rs vals boot c₁ c₂).vs.getD (t + 1) [])))
          (vals.getD t [])) := by
  have hT : 1 ≤ T := by omega
  have hvl : (vs bl tl ds rs vals boot c₁).length = T :=
    vs_length bl tl ds rs vals boot c₁ T hbl htl hds hrs hvals hT
  have htp1 : (vs_t_plus_1 bl tl ds rs vals boot c₁).length = T := by
    simp only [vs_t_plus_1, List.length_append, List.length_tail, hvl, List.length_singleton]
    omega
  have hcp : (clipped_pg_rhos bl tl c₂).length = T := by
    rw [clipped_pg_rhos_length, htl, hbl, min_self]
  have hrow : (vs_t_plus_1 bl tl ds rs vals boot c₁).getD t [] =
      (if t + 1 = T then boot else (vs bl tl ds rs vals boot c₁).getD (t + 1) []) := by
    by_cases h : t + 1 = T
    · rw [if_pos h]
      show ((vs bl tl ds rs vals boot c₁).tail ++ [boot]).getD t [] = boot
      rw [getD_append_ge _ _ _ _ (by rw [List.length_tail, hvl]; omega)]
      have h0 : t - (vs bl tl ds rs vals boot c₁).tail.length = 0 := by
        rw [List.length_tail, hvl]; omega
      rw [h0]
      rfl
    · rw [if_neg h]
      show ((vs bl tl ds rs vals boot c₁).tail ++ [boot]).getD t [] = _
      rw [getD_append_lt _ _ _ _ (by rw [List.length_tail, hvl]; omega), getD_tail]
  have hmulL : (map2arr (· * ·) ds (vs_t_plus_1 bl tl ds rs vals boot c₁)).length = T := by
    simp [map2arr, List.length_zipWith, hds, htp1]
  have haddL : (map2arr (· + ·) rs
      (map2arr (· * ·) ds (vs_t_plus_1 bl tl ds rs vals boot c₁))).length = T := by
    simp [map2arr, List.length_zipWith, hrs, hds, htp1]
  have hsubL : (map2arr (· - ·) (map2arr (· + ·) rs
      (map2arr (· * ·) ds (vs_t_plus_1 bl tl ds rs vals boot c₁))) vals).length = T := by
    simp [map2arr, List.length_zipWith, hrs, hds, htp1, hvals]
  have hproj : (from_importance_weights bl tl ds rs vals boot c₁ c₂).pg_advantages =
      pg_advantages bl tl ds rs vals boot c₁ c₂ := rfl
  have hproj2 : (from_importance_weights bl tl ds rs vals boot c₁ c₂).vs =
      vs bl tl ds rs vals boot c₁ := rfl
  rw [hproj, hproj2, pg_advantages]
  simp only [mul2, sub2, add2]
  rw [getD_map2arr _ _ _ t (by omega) (by omega : t < (map2arr (· - ·) (map2arr (· + ·) rs
      (map2arr (· * ·) ds (vs_t_plus_1 bl tl ds rs vals boot c₁))) vals).length)]
  rw [getD_map2arr _ _ _ t (by omega) (by omega : t < vals.length)]
  rw [getD_map2arr _ _ _ t (by omega) (by omega : t < (map2arr (· * ·) ds
      (vs_t_plus_1 bl tl ds rs vals boot c₁)).length)]
  rw [getD_map2arr _ _ _ t (by omega) (by omega : t < (vs_t_plus_1 bl tl ds rs vals boot c₁).length)]
  simp only [mulV, subV, addV, ← hrow]

/-- C2 witness: the row formula applied at a concrete one-step input. -/
theorem pg_advantages_row_witness :
    (from_importance_weights [[(0 : ℝ)]] [[(0 : ℝ)]] [[(1 : ℝ)]] [[(1 : ℝ)]] [[(1 : ℝ)]]
        [(1 : ℝ)] none none).pg_advantages.getD 0 [] =
      mulV ((clipped_pg_rhos [[(0 : ℝ)]] [[(0 : ℝ)]] none).getD 0 [])
        (subV (addV (([[(1 : ℝ)]] : Arr).getD 0 [])
          (mulV (([[(1 : ℝ)]] : Arr).getD 0 [])
            (if 0 + 1 = 1 then [(1 : ℝ)]
             else (from_importance_weights [[(0 : ℝ)]] [[(0 : ℝ)]] [[(1 : ℝ)]] [[(1 : ℝ)]]
               [[(1 : ℝ)]] [(1 : ℝ)] none none).vs.getD (0 + 1) [])))
          (([[(1 : ℝ)]] : Arr).getD 0 [])) :=
  pg_advantages_row [[(0 : ℝ)]] [[(0 : ℝ)]] [[(1 : ℝ)]] [[(1 : ℝ)]] [[(1 : ℝ)]] [(1 : ℝ)]
    none none 1 0 rfl rfl rfl rfl rfl Nat.one_pos

/-- C9: in the single-step case `T = B = 1` with equal behaviour and target
log-probabilities (so `rho = 1`) and clip thresholds absent or at least 1,
`vs = [[r + γ * vb]]` and `pg_advantages = [[r + γ * vb - v]]`. -/
theorem single_step_case (γ r v vb l : ℝ) (c₁ c₂ : Option EReal)
    (h₁ : c₁ = none ∨ ∃ m, c₁ = some m ∧ (1 : EReal) ≤ m)
    (h₂ : c₂ = none ∨ ∃ m, c₂ = some m ∧ (1 : EReal) ≤ m) :
    (from_importance_weights [[l]] [[l]] [[γ]] [[r]] [[v]] [vb] c₁ c₂).vs = [[r + γ * vb]] ∧
    (from_importance_weights [[l]] [[l]] [[γ]] [[r]] [[v]] [vb] c₁ c₂).pg_advantages
      = [[r + γ * vb - v]] := by
  have hr : rhos [[l]] [[l]] = [[1]] := by
    simp [rhos, log_rhos, sub2, map2arr, map2D, sub_self, Real.exp_zero]
  have hclip1 : clipped_rhos [[l]] [[l]] c₁ = [[1]] := by
    rcases h₁ with h | ⟨m, rfl, hm⟩
    · rw [h]
      show rhos [[l]] [[l]] = [[1]]
      exact hr
    · show map2D (fun x => clipMax x m) (rhos [[l]] [[l]]) = [[1]]
      rw [hr]
      simp [map2D, clipMax, EReal.coe_one, hm]
  have hclip2 : clipped_pg_rhos [[l]] [[l]] c₂ = [[1]] := by
    rcases h₂ with h | ⟨m, rfl, hm⟩
    · rw [h]
      show rhos [[l]] [[l]] = [[1]]
      exact hr
    · show map2D (fun x => clipMax x m) (rhos [[l]] [[l]]) = [[1]]
      rw [hr]
      simp [map2D, clipMax, EReal.coe_one, hm]
  have hcs : cs [[l]] [[l]] = [[1]] := by
    rw [cs_min, hr]
    simp [map2D]
  have hvs : vs [[l]] [[l]] [[γ]] [[r]] [[v]] [vb] c₁ = [[r + γ * vb]] := by
    rw [vs, vs_minus_v_xs, deltas, hclip1, hcs]
    simp only [values_t_plus_1, List.tail_cons, List.nil_append, mul2, add2, sub2, map2arr,
      List.zipWith_cons_cons, List.zipWith_nil_right, List.zipWith_nil_left, addV, mulV, subV,
      List.length_singleton, List.replicate, scanBack, List.headD]
    norm_num
  refine ⟨hvs, ?_⟩
  show pg_advantages [[l]] [[l]] [[γ]] [[r]] [[v]] [vb] c₁ c₂ = _
  rw [pg_advantages, hclip2, vs_t_plus_1, hvs]
  simp only [List.tail_cons, List.nil_append, mul2, add2, sub2, map2arr,
    List.zipWith_cons_cons, List.zipWith_nil_right, List.zipWith_nil_left]
  norm_num

/-- C9 witness: the single-step theorem applied at `γ = 1/2, r = 1, v = 3,
vb = 2`, with one threshold absent and the other equal to 1. -/
theorem single_step_case_witness :
    (from_importance_weights [[(5 : ℝ)]] [[(5 : ℝ)]] [[(1/2 : ℝ)]] [[(1 : ℝ)]] [[(3 : ℝ)]]
        [(2 : ℝ)] none (some ((1 : ℝ) : EReal))).vs = [[(1 : ℝ) + (1/2 : ℝ) * 2]] ∧
    (from_importance_weights [[(5 : ℝ)]] [[(5 : ℝ)]] [[(1/2 : ℝ)]] [[(1 : ℝ)]] [[(3 : ℝ)]]
        [(2 : ℝ)] none (some ((1 : ℝ) : EReal))).pg_advantages
      = [[(1 : ℝ) + (1/2 : ℝ) * 2 - 3]] :=
  single_step_case (1/2) 1 3 2 5 none (some ((1 : ℝ) : EReal)) (Or.inl rfl)
    (Or.inr ⟨((1 : ℝ) : EReal), rfl, by rw [EReal.coe_one]⟩)

theorem mul2_zeros_right (X : Arr) (T B : ℕ) (hX : X.length = T)
    (hr : ∀ r ∈ X, r.length = B) :
    mul2 X (List.replicate T (List.replicate B 0)) = List.replicate T (List.replicate B 0) := by
  induction X generalizing T with
  | nil =>
    subst hX
    simp [mul2, map2arr]
  | cons x X ih =>
    cases T with
    | zero => simp at hX
    | succ T =>
      simp only [List.replicate_succ, mul2, map2arr, List.zipWith_cons_cons]
      refine List.cons_eq_cons.mpr ⟨?_, ?_⟩
      · exact mulV_zeros_right x B (hr x (List.mem_cons_self x X))
      · exact ih T (by simpa using hX) (fun r hrr => hr r (List.mem_cons_of_mem x hrr))

theorem add2_zeros_left (X : Arr) (T B : ℕ) (hX : X.length = T)
    (hr : ∀ r ∈ X, r.length = B) :
    add2 (List.replicate T (List.replicate B 0)) X = X := by
  induction X generalizing T with
  | nil =>
    subst hX
    simp [add2, map2arr]
  | cons x X ih =>
    cases T with
    | zero => simp at hX
    | succ T =>
      simp only [List.replicate_succ, add2, map2arr, List.zipWith_cons_cons]
      refine List.cons_eq_cons.mpr ⟨?_, ?_⟩
      · exact addV_zeros_left x B (hr x (List.mem_cons_self x X))
      · exact ih T (by simpa using hX) (fun r hrr => hr r (List.mem_cons_of_mem x hrr))

theorem scanBack_zeros (T : ℕ) : ∀ (gs cls : Arr) (B : ℕ), gs.length = T → cls.length = T →
    (∀ r ∈ gs, r.length = B) → (∀ r ∈ cls, r.length = B) →
    scanBack (List.replicate T (List.replicate B 0)) gs cls (List.replicate B 0)
      = List.replicate T (List.replicate B 0) := by
  induction T with
  | zero =>
    intro gs cls B hg hc _ _
    simp [scanBack]
  | succ T ih =>
    intro gs cls B hg hc hgr hcr
    cases gs with
    | nil => simp at hg
    | cons g gs =>
      cases cls with
      | nil => simp at hc
      | cons c cls =>
        have hrest := ih gs cls B (by simpa using hg) (by simpa using hc)
          (fun r hr => hgr r (List.mem_cons_of_mem g hr))
          (fun r hr => hcr r (List.mem_cons_of_mem c hr))
        simp only [List.replicate_succ, scanBack]
        refine List.cons_eq_cons.mpr ⟨?_, hrest⟩
        rw [hrest]
        have hh : (List.replicate T (List.replicate B (0 : ℝ))).headD (List.replicate B 0)
            = List.replicate B 0 := by
          cases T <;> simp [List.replicate_succ]
        rw [hh]
        have hgc : (mulV g c).length = B := by
          simp [mulV, List.length_zipWith, hgr g (List.mem_cons_self g gs),
            hcr c (List.mem_cons_self c cls)]
        rw [mulV_zeros_right _ B hgc]
        exact addV_zeros_right _ B (by simp)

theorem scanBack_cut (t : ℕ) : ∀ (dels₁ gs₁ cls₁ dels₂ gs₂ cls₂ : Arr) (z : Row) (B : ℕ),
    gs₁.length = dels₁.length → cls₁.length = dels₁.length →
    dels₂.length = dels₁.length → gs₂.length = dels₁.length → cls₂.length = dels₁.length →
    t < dels₁.length →
    (∀ r ∈ dels₁, r.length = B) → (∀ r ∈ dels₂, r.length = B) →
    (∀ r ∈ gs₁, r.length = B) → (∀ r ∈ gs₂, r.length = B) →
    (∀ r ∈ cls₁, r.length = B) → (∀ r ∈ cls₂, r.length = B) →
    z.length = B →
    (∀ s, s ≤ t → dels₁.getD s [] = dels₂.getD s []) →
    (∀ s, s ≤ t → gs₁.getD s [] = gs₂.getD s []) →
    (∀ s, s ≤ t → cls₁.getD s [] = cls₂.getD s []) →
    gs₁.getD t [] = List.replicate B 0 →
    ∀ s, s ≤ t →
      (scanBack dels₁ gs₁ cls₁ z).getD s [] = (scanBack dels₂ gs₂ cls₂ z).getD s [] := by
  induction t with
  | zero =>
    intro dels₁ gs₁ cls₁ dels₂ gs₂ cls₂ z B hg₁ hc₁ hd₂ hg₂ hc₂ ht hd₁r hd₂r hg₁r hg₂r
      hc₁r hc₂r hz had hag hac hzero s hs
    have hs0 : s = 0 := Nat.le_zero.mp hs
    subst hs0
    cases dels₁ with
    | nil => simp at ht
    | cons d₁ dels₁ =>
      cases gs₁ with
      | nil => simp at hg₁
      | cons g₁ gs₁ =>
        cases cls₁ with
        | nil => simp at hc₁
        | cons cl₁ cls₁ =>
          cases dels₂ with
          | nil => simp at hd₂
          | cons d₂ dels₂ =>
            cases gs₂ with
            | nil => simp at hg₂
            | cons g₂ gs₂ =>
              cases cls₂ with
              | nil => simp at hc₂
              | cons cl₂ cls₂ =>
                have hd12 : d₁ = d₂ := by simpa using had 0 le_rfl
                have hg1z : g₁ = List.replicate B 0 := by simpa using hzero
                have hg2z : g₂ = List.replicate B 0 := by
                  have h := hag 0 le_rfl
                  simp only [List.getD_cons_zero] at h
                  rw [← h]
                  exact hg1z
                have hacc₁ : ((scanBack dels₁ gs₁ cls₁ z).headD z).length = B :=
                  scanBack_headD_len dels₁ gs₁ cls₁ z B
                    (fun r hr => hd₁r r (List.mem_cons_of_mem d₁ hr))
                    (fun r hr => hg₁r r (List.mem_cons_of_mem g₁ hr))
                    (fun r hr => hc₁r r (List.mem_cons_of_mem cl₁ hr)) hz
                have hacc₂ : ((scanBack dels₂ gs₂ cls₂ z).headD z).length = B :=
                  scanBack_headD_len dels₂ gs₂ cls₂ z B
                    (fun r hr => hd₂r r (List.mem_cons_of_mem d₂ hr))
                    (fun r hr => hg₂r r (List.mem_cons_of_mem g₂ hr))
                    (fun r hr => hc₂r r (List.mem_cons_of_mem cl₂ hr)) hz
                simp only [scanBack, List.getD_cons_zero]
                rw [hd12, hg1z, hg2z,
                  mulV_zeros_left cl₁ B (hc₁r cl₁ (List.mem_cons_self cl₁ cls₁)),
                  mulV_zeros_left cl₂ B (hc₂r cl₂ (List.mem_cons_self cl₂ cls₂)),
                  mulV_zeros_left _ B hacc₁, mulV_zeros_left _ B hacc₂]
  | succ t ih =>
    intro dels₁ gs₁ cls₁ dels₂ gs₂ cls₂ z B hg₁ hc₁ hd₂ hg₂ hc₂ ht hd₁r hd₂r hg₁r hg₂r
      hc₁r hc₂r hz had hag hac hzero s hs
    cases dels₁ with
    | nil => simp at ht
    | cons d₁ dels₁ =>
      cases gs₁ with
      | nil => simp at hg₁
      | cons g₁ gs₁ =>
        cases cls₁ with
        | nil => simp at hc₁
        | cons cl₁ cls₁ =>
          cases dels₂ with
          | nil => simp at hd₂
          | cons d₂ dels₂ =>
            cases gs₂ with
            | nil => simp at hg₂
            | cons g₂ gs₂ =>
              cases cls₂ with
              | nil => simp at hc₂
              | cons cl₂ cls₂ =>
                have hrest : ∀ s, s ≤ t →
                    (scanBack dels₁ gs₁ cls₁ z).getD s []
                      = (scanBack dels₂ gs₂ cls₂ z).getD s [] := by
                  apply ih dels₁ gs₁ cls₁ dels₂ gs₂ cls₂ z B
                    (by simpa using hg₁) (by simpa using hc₁) (by simpa using hd₂)
                    (by simpa using hg₂) (by simpa using hc₂) (by simpa using ht)
                    (fun r hr => hd₁r r (List.mem_cons_of_mem d₁ hr))
                    (fun r hr => hd₂r r (List.mem_cons_of_mem d₂ hr))
                    (fun r hr => hg₁r r (List.mem_cons_of_mem g₁ hr))
                    (fun r hr => hg₂r r (List.mem_cons_of_mem g₂ hr))
                    (fun r hr => hc₁r r (List.mem_cons_of_mem cl₁ hr))
                    (fun r hr => hc₂r r (List.mem_cons_of_mem cl₂ hr)) hz
                    (fun s hs' => by simpa using had (s + 1) (by omega))
                    (fun s hs' => by simpa using hag (s + 1) (by omega))
                    (fun s hs' => by simpa using hac (s + 1) (by omega))
                    (by simpa using hzero)
                cases s with
                | zero =>
                  have hd12 : d₁ = d₂ := by simpa using had 0 (by omega)
                  have hg12 : g₁ = g₂ := by simpa using hag 0 (by omega)
                  have hc12 : cl₁ = cl₂ := by simpa using hac 0 (by omega)
                  have hlen₁ : 0 < (scanBack dels₁ gs₁ cls₁ z).length := by
                    rw [scanBack_length]
                    have h1 : gs₁.length = dels₁.length := by simpa using hg₁
                    have h2 : cls₁.length = dels₁.length := by simpa using hc₁
                    have h3 : t + 1 < dels₁.length + 1 := by simpa using ht
                    omega
                  have hlen₂ : 0 < (scanBack dels₂ gs₂ cls₂ z).length := by
                    rw [scanBack_length]
                    have h1 : gs₂.length = dels₁.length := by simpa using hg₂
                    have h2 : cls₂.length = dels₁.length := by simpa using hc₂
                    have h3 : dels₂.length = dels₁.length := by simpa using hd₂
                    have h4 : t + 1 < dels₁.length + 1 := by simpa using ht
                    omega
                  have hhd : (scanBack dels₁ gs₁ cls₁ z).headD z
                      = (scanBack dels₂ gs₂ cls₂ z).headD z := by
                    rw [headD_eq_getD, headD_eq_getD, getD_irrel _ 0 z [] hlen₁,
                      getD_irrel _ 0 z [] hlen₂]
                    exact hrest 0 (Nat.zero_le t)
                  simp only [scanBack, List.getD_cons_zero]
                  rw [hd12, hg12, hc12, hhd]
                | succ s =>
                  simp only [scanBack, List.getD_cons_succ]
                  exact hrest s (by omega)

set_option maxHeartbeats 2000000 in
/-- C6: episode boundaries cut the trace.  Two calls whose inputs agree at
all timesteps up to and including `t`, both with `discounts[t] = 0`,
produce identical accumulator rows `acc_s` (`vs_minus_v_xs`) and `vs` rows
at every `s < t`, whatever the rewards, values, discounts,
log-probabilities and bootstrap value at later timesteps are. -/
theorem discount_zero_isolates (bl₁ tl₁ ds₁ rs₁ vals₁ bl₂ tl₂ ds₂ rs₂ vals₂ : Arr)
    (boot₁ boot₂ : Row) (c₁ c₂ : Option EReal) (T B t s : ℕ)
    (hbl₁ : bl₁.length = T) (htl₁ : tl₁.length = T) (hds₁ : ds₁.length = T)
    (hrs₁ : rs₁.length = T) (hvals₁ : vals₁.length = T)
    (hbl₂ : bl₂.length = T) (htl₂ : tl₂.length = T) (hds₂ : ds₂.length = T)
    (hrs₂ : rs₂.length = T) (hvals₂ : vals₂.length = T)
    (hblr₁ : ∀ r ∈ bl₁, r.length = B) (htlr₁ : ∀ r ∈ tl₁, r.length = B)
    (hdsr₁ : ∀ r ∈ ds₁, r.length = B) (hrsr₁ : ∀ r ∈ rs₁, r.length = B)
    (hvalsr₁ : ∀ r ∈ vals₁, r.length = B) (hbootl₁ : boot₁.length = B)
    (hblr₂ : ∀ r ∈ bl₂, r.length = B) (htlr₂ : ∀ r ∈ tl₂, r.length = B)
    (hdsr₂ : ∀ r ∈ ds₂, r.length = B) (hrsr₂ : ∀ r ∈ rs₂, r.length = B)
    (hvalsr₂ : ∀ r ∈ vals₂, r.length = B) (hbootl₂ : boot₂.length = B)
    (ht : t < T)
    (habl : ∀ u, u ≤ t → bl₁.getD u [] = bl₂.getD u [])
    (hatl : ∀ u, u ≤ t → tl₁.getD u [] = tl₂.getD u [])
    (hads : ∀ u, u ≤ t → ds₁.getD u [] = ds₂.getD u [])
    (hars : ∀ u, u ≤ t → rs₁.getD u [] = rs₂.getD u [])
    (havals : ∀ u, u ≤ t → vals₁.getD u [] = vals₂.getD u [])
    (hzero : ds₁.getD t [] = List.replicate B 0)
    (hst : s < t) :
    (vs_minus_v_xs bl₁ tl₁ ds₁ rs₁ vals₁ boot₁ c₁).getD s []
      = (vs_minus_v_xs bl₂ tl₂ ds₂ rs₂ vals₂ boot₂ c₁).getD s [] ∧
    (from_importance_weights bl₁ tl₁ ds₁ rs₁ vals₁ boot₁ c₁ c₂).vs.getD s []
      = (from_importance_weights bl₂ tl₂ ds₂ rs₂ vals₂ boot₂ c₁ c₂).vs.getD s [] := by
  have hT1 : 1 ≤ T := by omega
  have hult : ∀ u, u ≤ t → u < T := fun u hu => lt_of_le_of_lt hu ht
  have hult1 : ∀ u, u ≤ t → u ≠ t → u < T - 1 := by intro u hu hne; omega
  have hsucc : ∀ u, u ≤ t → u ≠ t → u + 1 ≤ t := by intro u hu hne; omega
  have hdelL₁ : (deltas bl₁ tl₁ ds₁ rs₁ vals₁ boot₁ c₁).length = T :=
    deltas_length bl₁ tl₁ ds₁ rs₁ vals₁ boot₁ c₁ T hbl₁ htl₁ hds₁ hrs₁ hvals₁ hT1
  have hdelL₂ : (deltas bl₂ tl₂ ds₂ rs₂ vals₂ boot₂ c₁).length = T :=
    deltas_length bl₂ tl₂ ds₂ rs₂ vals₂ boot₂ c₁ T hbl₂ htl₂ hds₂ hrs₂ hvals₂ hT1
  have hcsL₁ : (cs bl₁ tl₁).length = T := by rw [cs_length, htl₁, hbl₁, min_self]
  have hcsL₂ : (cs bl₂ tl₂).length = T := by rw [cs_length, htl₂, hbl₂, min_self]
  have hclipL₁ : (clipped_rhos bl₁ tl₁ c₁).length = T := by
    rw [clipped_rhos_length, htl₁, hbl₁, min_self]
  have hclipL₂ : (clipped_rhos bl₂ tl₂ c₁).length = T := by
    rw [clipped_rhos_length, htl₂, hbl₂, min_self]
  have htp1L₁ : (values_t_plus_1 vals₁ boot₁).length = T := by
    rw [values_t_plus_1_length, hvals₁]
    exact Nat.sub_add_cancel hT1
  have htp1L₂ : (values_t_plus_1 vals₂ boot₂).length = T := by
    rw [values_t_plus_1_length, hvals₂]
    exact Nat.sub_add_cancel hT1
  have hmulL₁ : (map2arr (· * ·) ds₁ (values_t_plus_1 vals₁ boot₁)).length = T := by
    simp [map2arr, List.length_zipWith, hds₁, htp1L₁]
  have hmulL₂ : (map2arr (· * ·) ds₂ (values_t_plus_1 vals₂ boot₂)).length = T := by
    simp [map2arr, List.length_zipWith, hds₂, htp1L₂]
  have haddL₁ : (map2arr (· + ·) rs₁
      (map2arr (· * ·) ds₁ (values_t_plus_1 vals₁ boot₁))).length = T := by
    simp [map2arr, List.length_zipWith, hrs₁, hds₁, htp1L₁]
  have haddL₂ : (map2arr (· + ·) rs₂
      (map2arr (· * ·) ds₂ (values_t_plus_1 vals₂ boot₂))).length = T := by
    simp [map2arr, List.length_zipWith, hrs₂, hds₂, htp1L₂]
  have hsubL₁ : (map2arr (· - ·) (map2arr (· + ·) rs₁
      (map2arr (· * ·) ds₁ (values_t_plus_1 vals₁ boot₁))) vals₁).length = T := by
    simp [map2arr, List.length_zipWith, hrs₁, hds₁, htp1L₁, hvals₁]
  have hsubL₂ : (map2arr (· - ·) (map2arr (· + ·) rs₂
      (map2arr (· * ·) ds₂ (values_t_plus_1 vals₂ boot₂))) vals₂).length = T := by
    simp [map2arr, List.length_zipWith, hrs₂, hds₂, htp1L₂, hvals₂]
  have harho : ∀ u, u ≤ t → (rhos bl₁ tl₁).getD u [] = (rhos bl₂ tl₂).getD u [] := by
    intro u hu
    simp only [rhos, log_rhos, sub2]
    rw [getD_map2D, getD_map2D,
      getD_map2arr _ _ _ u (show u < tl₁.length by rw [htl₁]; exact hult u hu)
        (show u < bl₁.length by rw [hbl₁]; exact hult u hu),
      getD_map2arr _ _ _ u (show u < tl₂.length by rw [htl₂]; exact hult u hu)
        (show u < bl₂.length by rw [hbl₂]; exact hult u hu),
      hatl u hu, habl u hu]
  have haclip : ∀ u, u ≤ t →
      (clipped_rhos bl₁ tl₁ c₁).getD u [] = (clipped_rhos bl₂ tl₂ c₁).getD u [] := by
    cases c₁ with
    | none => exact harho
    | some m =>
      intro u hu
      simp only [clipped_rhos]
      rw [getD_map2D, getD_map2D, harho u hu]
  have hacs : ∀ u, u ≤ t → (cs bl₁ tl₁).getD u [] = (cs bl₂ tl₂).getD u [] := by
    intro u hu
    simp only [cs]
    rw [getD_map2D, getD_map2D, harho u hu]
  have htp1rowlen₁ : ((values_t_plus_1 vals₁ boot₁).getD t []).length = B :=
    rows_values_t_plus_1 vals₁ boot₁ B hvalsr₁ hbootl₁ _
      (getD_mem _ t [] (by rw [htp1L₁]; exact ht))
  have htp1rowlen₂ : ((values_t_plus_1 vals₂ boot₂).getD t []).length = B :=
    rows_values_t_plus_1 vals₂ boot₂ B hvalsr₂ hbootl₂ _
      (getD_mem _ t [] (by rw [htp1L₂]; exact ht))
  have hadel : ∀ u, u ≤ t → (deltas bl₁ tl₁ ds₁ rs₁ vals₁ boot₁ c₁).getD u []
      = (deltas bl₂ tl₂ ds₂ rs₂ vals₂ boot₂ c₁).getD u [] := by
    intro u hu
    simp only [deltas, mul2, sub2, add2]
    rw [getD_map2arr _ _ _ u
        (show u < (clipped_rhos bl₁ tl₁ c₁).length by rw [hclipL₁]; exact hult u hu)
        (show u < _ by rw [hsubL₁]; exact hult u hu),
      getD_map2arr _ _ _ u
        (show u < (clipped_rhos bl₂ tl₂ c₁).length by rw [hclipL₂]; exact hult u hu)
        (show u < _ by rw [hsubL₂]; exact hult u hu),
      getD_map2arr _ _ _ u (show u < _ by rw [haddL₁]; exact hult u hu)
        (show u < vals₁.length by rw [hvals₁]; exact hult u hu),
      getD_map2arr _ _ _ u (show u < _ by rw [haddL₂]; exact hult u hu)
        (show u < vals₂.length by rw [hvals₂]; exact hult u hu),
      getD_map2arr _ _ _ u (show u < rs₁.length by rw [hrs₁]; exact hult u hu)
        (show u < _ by rw [hmulL₁]; exact hult u hu),
      getD_map2arr _ _ _ u (show u < rs₂.length by rw [hrs₂]; exact hult u hu)
        (show u < _ by rw [hmulL₂]; exact hult u hu),
      getD_map2arr _ _ _ u (show u < ds₁.length by rw [hds₁]; exact hult u hu)
        (show u < _ by rw [htp1L₁]; exact hult u hu),
      getD_map2arr _ _ _ u (show u < ds₂.length by rw [hds₂]; exact hult u hu)
        (show u < _ by rw [htp1L₂]; exact hult u hu),
      haclip u hu, hars u hu, havals u hu]
    suffices h : List.zipWith (· * ·) (ds₁.getD u []) ((values_t_plus_1 vals₁ boot₁).getD u [])
        = List.zipWith (· * ·) (ds₂.getD u []) ((values_t_plus_1 vals₂ boot₂).getD u []) by
      rw [h]
    by_cases hut : u = t
    · subst hut
      have hz₂ : ds₂.getD u [] = List.replicate B 0 := by rw [← hads u le_rfl]; exact hzero
      have h1 := mulV_zeros_left ((values_t_plus_1 vals₁ boot₁).getD u []) B htp1rowlen₁
      have h2 := mulV_zeros_left ((values_t_plus_1 vals₂ boot₂).getD u []) B htp1rowlen₂
      simp only [mulV] at h1 h2
      rw [hzero, hz₂, h1, h2]
    · have htp1row₁ : (values_t_plus_1 vals₁ boot₁).getD u [] = vals₁.getD (u + 1) [] := by
        show (vals₁.tail ++ [boot₁]).getD u [] = _
        rw [getD_append_lt _ _ _ _
          (by rw [List.length_tail, hvals₁]; exact hult1 u hu hut), getD_tail]
      have htp1row₂ : (values_t_plus_1 vals₂ boot₂).getD u [] = vals₂.getD (u + 1) [] := by
        show (vals₂.tail ++ [boot₂]).getD u [] = _
        rw [getD_append_lt _ _ _ _
          (by rw [List.length_tail, hvals₂]; exact hult1 u hu hut), getD_tail]
      rw [htp1row₁, htp1row₂, hads u hu, havals (u + 1) (hsucc u hu hut)]
  have hscan : ∀ u, u ≤ t →
      (scanBack (deltas bl₁ tl₁ ds₁ rs₁ vals₁ boot₁ c₁) ds₁ (cs bl₁ tl₁)
        (List.replicate B 0)).getD u []
      = (scanBack (deltas bl₂ tl₂ ds₂ rs₂ vals₂ boot₂ c₁) ds₂ (cs bl₂ tl₂)
        (List.replicate B 0)).getD u [] := by
    refine scanBack_cut t _ _ _ _ _ _ _ B ?_ ?_ ?_ ?_ ?_ ?_ ?_ ?_ ?_ ?_ ?_ ?_ ?_ ?_ ?_ ?_ ?_
    · rw [hds₁, hdelL₁]
    · rw [hcsL₁, hdelL₁]
    · rw [hdelL₂, hdelL₁]
    · rw [hds₂, hdelL₁]
    · rw [hcsL₂, hdelL₁]
    · rw [hdelL₁]; exact ht
    · exact rows_deltas bl₁ tl₁ ds₁ rs₁ vals₁ boot₁ c₁ B hblr₁ htlr₁ hdsr₁ hrsr₁ hvalsr₁ hbootl₁
    · exact rows_deltas bl₂ tl₂ ds₂ rs₂ vals₂ boot₂ c₁ B hblr₂ htlr₂ hdsr₂ hrsr₂ hvalsr₂ hbootl₂
    · exact hdsr₁
    · exact hdsr₂
    · exact rows_cs bl₁ tl₁ B hblr₁ htlr₁
    · exact rows_cs bl₂ tl₂ B hblr₂ htlr₂
    · simp
    · exact hadel
    · exact hads
    · exact hacs
    · exact hzero
  have hvmL₁ : (vs_minus_v_xs bl₁ tl₁ ds₁ rs₁ vals₁ boot₁ c₁).length = T := by
    simp only [vs_minus_v_xs]
    rw [scanBack_length, hdelL₁, hds₁, hcsL₁, min_self, min_self]
  have hvmL₂ : (vs_minus_v_xs bl₂ tl₂ ds₂ rs₂ vals₂ boot₂ c₁).length = T := by
    simp only [vs_minus_v_xs]
    rw [scanBack_length, hdelL₂, hds₂, hcsL₂, min_self, min_self]
  have hvm : (vs_minus_v_xs bl₁ tl₁ ds₁ rs₁ vals₁ boot₁ c₁).getD s []
      = (vs_minus_v_xs bl₂ tl₂ ds₂ rs₂ vals₂ boot₂ c₁).getD s [] := by
    simp only [vs_minus_v_xs, hbootl₁, hbootl₂]
    exact hscan s (le_of_lt hst)
  refine ⟨hvm, ?_⟩
  show (vs bl₁ tl₁ ds₁ rs₁ vals₁ boot₁ c₁).getD s []
    = (vs bl₂ tl₂ ds₂ rs₂ vals₂ boot₂ c₁).getD s []
  simp only [vs, add2]
  rw [getD_map2arr _ _ _ s (show s < _ by rw [hvmL₁]; exact hult s (le_of_lt hst))
      (show s < vals₁.length by rw [hvals₁]; exact hult s (le_of_lt hst)),
    getD_map2arr _ _ _ s (show s < _ by rw [hvmL₂]; exact hult s (le_of_lt hst))
      (show s < vals₂.length by rw [hvals₂]; exact hult s (le_of_lt hst)),
    hvm, havals s (le_of_lt hst)]

/-- C6 witness: the isolation theorem applied at a concrete pair of inputs
(`T = 3, B = 1, t = 1, s = 0`) that agree up to step 1, have
`discounts[1] = 0`, and differ arbitrarily at step 2 and in the bootstrap. -/
theorem discount_zero_isolates_witness :
    (vs_minus_v_xs [[(0 : ℝ)], [0], [0]] [[(0 : ℝ)], [0], [0]] [[(1 : ℝ)], [0], [1]]
        [[(1 : ℝ)], [1], [1]] [[(1 : ℝ)], [1], [1]] [(1 : ℝ)] none).getD 0 []
      = (vs_minus_v_xs [[(0 : ℝ)], [0], [0]] [[(0 : ℝ)], [0], [3]] [[(1 : ℝ)], [0], [5]]
        [[(1 : ℝ)], [1], [9]] [[(1 : ℝ)], [1], [9]] [(9 : ℝ)] none).getD 0 [] ∧
    (from_importance_weights [[(0 : ℝ)], [0], [0]] [[(0 : ℝ)], [0], [0]] [[(1 : ℝ)], [0], [1]]
        [[(1 : ℝ)], [1], [1]] [[(1 : ℝ)], [1], [1]] [(1 : ℝ)] none (some ((1 : ℝ) : EReal))).vs.getD 0 []
      = (from_importance_weights [[(0 : ℝ)], [0], [0]] [[(0 : ℝ)], [0], [3]] [[(1 : ℝ)], [0], [5]]
        [[(1 : ℝ)], [1], [9]] [[(1 : ℝ)], [1], [9]] [(9 : ℝ)] none
          (some ((1 : ℝ) : EReal))).vs.getD 0 [] :=
  discount_zero_isolates [[(0 : ℝ)], [0], [0]] [[(0 : ℝ)], [0], [0]] [[(1 : ℝ)], [0], [1]]
    [[(1 : ℝ)], [1], [1]] [[(1 : ℝ)], [1], [1]] [[(0 : ℝ)], [0], [0]] [[(0 : ℝ)], [0], [3]]
    [[(1 : ℝ)], [0], [5]] [[(1 : ℝ)], [1], [9]] [[(1 : ℝ)], [1], [9]] [(1 : ℝ)] [(9 : ℝ)]
    none (some ((1 : ℝ) : EReal)) 3 1 1 0
    rfl rfl rfl rfl rfl rfl rfl rfl rfl rfl
    (by simp) (by simp) (by simp) (by simp) (by simp) rfl
    (by simp) (by simp) (by simp) (by simp) (by simp) rfl
    (by omega)
    (by intro u hu; interval_cases u <;> rfl)
    (by intro u hu; interval_cases u <;> rfl)
    (by intro u hu; interval_cases u <;> rfl)
    (by intro u hu; interval_cases u <;> rfl)
    (by intro u hu; interval_cases u <;> rfl)
    rfl
    (by omega)

theorem entry_deltas (bl tl ds rs vals : Arr) (boot : Row) (c : EReal) (T B t b : ℕ)
    (hbl : bl.length = T) (htl : tl.length = T) (hds : ds.length = T) (hrs : rs.length = T)
    (hvals : vals.length = T) (ht : t < T)
    (hblrow : (bl.getD t []).length = B) (htlrow : (tl.getD t []).length = B)
    (hdsrow : (ds.getD t []).length = B) (hrsrow : (rs.getD t []).length = B)
    (hvalsrow : (vals.getD t []).length = B)
    (htp1row : ((values_t_plus_1 vals boot).getD t []).length = B)
    (hb : b < B) :
    entry (deltas bl tl ds rs vals boot (some c)) t b =
      clipMax (entry (rhos bl tl) t b) c *
        (entry rs t b + entry ds t b * entry (values_t_plus_1 vals boot) t b
          - entry vals t b) := by
  have hT1 : 1 ≤ T := by omega
  have hrhoL : (rhos bl tl).length = T := by rw [rhos_length, htl, hbl, min_self]
  have hlr : ((rhos bl tl).getD t []).length = B := by
    simp only [rhos, log_rhos, sub2]
    rw [getD_map2D, List.length_map,
      getD_map2arr _ _ _ t (by rw [htl]; exact ht) (by rw [hbl]; exact ht),
      List.length_zipWith, htlrow, hblrow, min_self]
  have hclipL : (map2D (fun x => clipMax x c) (rhos bl tl)).length = T := by
    simp only [map2D, List.length_map]
    exact hrhoL
  have htp1L : (values_t_plus_1 vals boot).length = T := by
    rw [values_t_plus_1_length, hvals]
    exact Nat.sub_add_cancel hT1
  have hmulL : (map2arr (· * ·) ds (values_t_plus_1 vals boot)).length = T := by
    simp [map2arr, List.length_zipWith, hds, htp1L]
  have haddL : (map2arr (· + ·) rs
      (map2arr (· * ·) ds (values_t_plus_1 vals boot))).length = T := by
    simp [map2arr, List.length_zipWith, hrs, hds, htp1L]
  have hsubL : (map2arr (· - ·) (map2arr (· + ·) rs
      (map2arr (· * ·) ds (values_t_plus_1 vals boot))) vals).length = T := by
    simp [map2arr, List.length_zipWith, hrs, hds, htp1L, hvals]
  simp only [entry, deltas, mul2, sub2, add2, clipped_rhos]
  rw [getD_map2arr _ _ _ t (by rw [hclipL]; exact ht) (by rw [hsubL]; exact ht),
    getD_map2arr _ _ _ t (by rw [haddL]; exact ht) (by rw [hvals]; exact ht),
    getD_map2arr _ _ _ t (by rw [hrs]; exact ht) (by rw [hmulL]; exact ht),
    getD_map2arr _ _ _ t (by rw [hds]; exact ht) (by rw [htp1L]; exact ht),
    getD_map2D]
  rw [getD_zipWith _ _ _ b 0 0 0 (by rw [List.length_map, hlr]; exact hb)
      (by rw [List.length_zipWith, List.length_zipWith, List.length_zipWith, hrsrow, hdsrow,
        htp1row, hvalsrow, min_self, min_self, min_self]; exact hb),
    getD_zipWith _ _ _ b 0 0 0 (by rw [List.length_zipWith, List.length_zipWith, hrsrow,
        hdsrow, htp1row, min_self, min_self]; exact hb) (by rw [hvalsrow]; exact hb),
    getD_zipWith _ _ _ b 0 0 0 (by rw [hrsrow]; exact hb)
      (by rw [List.length_zipWith, hdsrow, htp1row, min_self]; exact hb),
    getD_zipWith _ _ _ b 0 0 0 (by rw [hdsrow]; exact hb) (by rw [htp1row]; exact hb),
    getD_map_lt _ _ b 0 0 (by rw [hlr]; exact hb)]

/-- C7 counterexample: with `rhos[0] = 4` exceeding the threshold 2,
decreasing `clip_rho_threshold` from 2 to 1 *increases* the magnitude of
the correction `|vs[0] - values[0]|` from 0 to 1 (a downstream term
cancels under the larger threshold), refuting the claim that it strictly
reduces it and never increases it. -/
theorem clip_can_increase_vs_correction :
    entry (rhos [[(0 : ℝ)], [0]] [[Real.log 4], [0]]) 0 0 = 4 ∧
    entry (vs [[(0 : ℝ)], [0]] [[Real.log 4], [0]] [[(1 : ℝ)], [1]] [[(1 : ℝ)], [-2]]
      [[(0 : ℝ)], [0]] [(0 : ℝ)] (some ((2 : ℝ) : EReal))) 0 0 = 0 ∧
    entry (vs [[(0 : ℝ)], [0]] [[Real.log 4], [0]] [[(1 : ℝ)], [1]] [[(1 : ℝ)], [-2]]
      [[(0 : ℝ)], [0]] [(0 : ℝ)] (some ((1 : ℝ) : EReal))) 0 0 = -1 ∧
    |entry (vs [[(0 : ℝ)], [0]] [[Real.log 4], [0]] [[(1 : ℝ)], [1]] [[(1 : ℝ)], [-2]]
        [[(0 : ℝ)], [0]] [(0 : ℝ)] (some ((2 : ℝ) : EReal))) 0 0
      - entry ([[(0 : ℝ)], [0]] : Arr) 0 0| <
    |entry (vs [[(0 : ℝ)], [0]] [[Real.log 4], [0]] [[(1 : ℝ)], [1]] [[(1 : ℝ)], [-2]]
        [[(0 : ℝ)], [0]] [(0 : ℝ)] (some ((1 : ℝ) : EReal))) 0 0
      - entry ([[(0 : ℝ)], [0]] : Arr) 0 0| := by
  have hrho : rhos [[(0 : ℝ)], [0]] [[Real.log 4], [0]] = [[4], [1]] := by
    norm_num [rhos, log_rhos, sub2, map2arr, map2D, Real.exp_log]
  have hclip2 : clipped_rhos [[(0 : ℝ)], [0]] [[Real.log 4], [0]] (some ((2 : ℝ) : EReal))
      = [[2], [1]] := by
    show map2D (fun x => clipMax x ((2 : ℝ) : EReal)) (rhos [[(0 : ℝ)], [0]] [[Real.log 4], [0]])
      = [[2], [1]]
    rw [hrho]
    norm_num [map2D, clipMax_coe]
  have hclip1 : clipped_rhos [[(0 : ℝ)], [0]] [[Real.log 4], [0]] (some ((1 : ℝ) : EReal))
      = [[1], [1]] := by
    show map2D (fun x => clipMax x ((1 : ℝ) : EReal)) (rhos [[(0 : ℝ)], [0]] [[Real.log 4], [0]])
      = [[1], [1]]
    rw [hrho]
    norm_num [map2D, clipMax_coe, clipMax_one]
  have hcs : cs [[(0 : ℝ)], [0]] [[Real.log 4], [0]] = [[1], [1]] := by
    rw [cs_min, hrho]
    norm_num [map2D]
  have hdel2 : deltas [[(0 : ℝ)], [0]] [[Real.log 4], [0]] [[(1 : ℝ)], [1]] [[(1 : ℝ)], [-2]]
      [[(0 : ℝ)], [0]] [(0 : ℝ)] (some ((2 : ℝ) : EReal)) = [[2], [-2]] := by
    simp only [deltas, hclip2]
    norm_num [mul2, add2, sub2, map2arr, values_t_plus_1]
  have hdel1 : deltas [[(0 : ℝ)], [0]] [[Real.log 4], [0]] [[(1 : ℝ)], [1]] [[(1 : ℝ)], [-2]]
      [[(0 : ℝ)], [0]] [(0 : ℝ)] (some ((1 : ℝ) : EReal)) = [[1], [-2]] := by
    simp only [deltas, hclip1]
    norm_num [mul2, add2, sub2, map2arr, values_t_plus_1]
  have hvm2 : vs_minus_v_xs [[(0 : ℝ)], [0]] [[Real.log 4], [0]] [[(1 : ℝ)], [1]]
      [[(1 : ℝ)], [-2]] [[(0 : ℝ)], [0]] [(0 : ℝ)] (some ((2 : ℝ) : EReal)) = [[0], [-2]] := by
    simp only [vs_minus_v_xs, hdel2, hcs]
    norm_num [scanBack, addV, mulV, List.replicate]
  have hvm1 : vs_minus_v_xs [[(0 : ℝ)], [0]] [[Real.log 4], [0]] [[(1 : ℝ)], [1]]
      [[(1 : ℝ)], [-2]] [[(0 : ℝ)], [0]] [(0 : ℝ)] (some ((1 : ℝ) : EReal)) = [[-1], [-2]] := by
    simp only [vs_minus_v_xs, hdel1, hcs]
    norm_num [scanBack, addV, mulV, List.replicate]
  have hvs2 : vs [[(0 : ℝ)], [0]] [[Real.log 4], [0]] [[(1 : ℝ)], [1]] [[(1 : ℝ)], [-2]]
      [[(0 : ℝ)], [0]] [(0 : ℝ)] (some ((2 : ℝ) : EReal)) = [[0], [-2]] := by
    simp only [vs, hvm2]
    norm_num [add2, map2arr]
  have hvs1 : vs [[(0 : ℝ)], [0]] [[Real.log 4], [0]] [[(1 : ℝ)], [1]] [[(1 : ℝ)], [-2]]
      [[(0 : ℝ)], [0]] [(0 : ℝ)] (some ((1 : ℝ) : EReal)) = [[-1], [-2]] := by
    simp only [vs, hvm1]
    norm_num [add2, map2arr]
  refine ⟨by rw [hrho]; rfl, by rw [hvs2]; rfl, by rw [hvs1]; rfl, ?_⟩
  rw [hvs2, hvs1]
  show |(0 : ℝ) - 0| < |(-1 : ℝ) - 0|
  norm_num

/-- C7 amended: for a step whose importance ratio exceeds both thresholds,
decreasing the clip threshold from `c₁` to `c₂` never increases the
magnitude of the per-step correction `|deltas[t][b]|`, and strictly
reduces it when the TD residual at that entry is nonzero.  (The total
correction `|vs[t] - values[t]|` can still increase, because downstream
terms of the recurrence may cancel — see the counterexample.) -/
theorem clip_shrinks_step_delta (bl tl ds rs vals : Arr) (boot : Row) (T B t b : ℕ)
    (c₁ c₂ : ℝ)
    (hbl : bl.length = T) (htl : tl.length = T) (hds : ds.length = T) (hrs : rs.length = T)
    (hvals : vals.length = T) (ht : t < T)
    (hblrow : (bl.getD t []).length = B) (htlrow : (tl.getD t []).length = B)
    (hdsrow : (ds.getD t []).length = B) (hrsrow : (rs.getD t []).length = B)
    (hvalsrow : (vals.getD t []).length = B)
    (htp1row : ((values_t_plus_1 vals boot).getD t []).length = B)
    (hb : b < B)
    (h0 : 0 < c₂) (h21 : c₂ < c₁) (h1r : c₁ < entry (rhos bl tl) t b) :
    |entry (deltas bl tl ds rs vals boot (some ((c₂ : ℝ) : EReal))) t b| ≤
      |entry (deltas bl tl ds rs vals boot (some ((c₁ : ℝ) : EReal))) t b| ∧
    (entry rs t b + entry ds t b * entry (values_t_plus_1 vals boot) t b
        - entry vals t b ≠ 0 →
      |entry (deltas bl tl ds rs vals boot (some ((c₂ : ℝ) : EReal))) t b| <
        |entry (deltas bl tl ds rs vals boot (some ((c₁ : ℝ) : EReal))) t b|) := by
  rw [entry_deltas bl tl ds rs vals boot _ T B t b hbl htl hds hrs hvals ht hblrow htlrow
      hdsrow hrsrow hvalsrow htp1row hb,
    entry_deltas bl tl ds rs vals boot _ T B t b hbl htl hds hrs hvals ht hblrow htlrow
      hdsrow hrsrow hvalsrow htp1row hb,
    clipMax_coe, clipMax_coe,
    min_eq_right (le_of_lt h1r), min_eq_right (le_of_lt (lt_trans h21 h1r)),
    abs_mul, abs_mul]
  have hc₂ : |c₂| = c₂ := abs_of_pos h0
  have hc₁ : |c₁| = c₁ := abs_of_pos (lt_trans h0 h21)
  rw [hc₁, hc₂]
  constructor
  · exact mul_le_mul_of_nonneg_right (le_of_lt h21) (abs_nonneg _)
  · intro hx
    exact (mul_lt_mul_right (abs_pos.mpr hx)).mpr h21

/-- C7 amended witness: the step-delta monotonicity applied at the
input of the counterexample, where `rhos[0][0] = 4 > 2 > 1` and the TD residual
is 1. -/
theorem clip_shrinks_step_delta_witness :
    |entry (deltas [[(0 : ℝ)], [0]] [[Real.log 4], [0]] [[(1 : ℝ)], [1]] [[(1 : ℝ)], [-2]]
        [[(0 : ℝ)], [0]] [(0 : ℝ)] (some ((1 : ℝ) : EReal))) 0 0| ≤
      |entry (deltas [[(0 : ℝ)], [0]] [[Real.log 4], [0]] [[(1 : ℝ)], [1]] [[(1 : ℝ)], [-2]]
        [[(0 : ℝ)], [0]] [(0 : ℝ)] (some ((2 : ℝ) : EReal))) 0 0| ∧
    (entry [[(1 : ℝ)], [-2]] 0 0 + entry [[(1 : ℝ)], [1]] 0 0 *
        entry (values_t_plus_1 [[(0 : ℝ)], [0]] [(0 : ℝ)]) 0 0
        - entry [[(0 : ℝ)], [0]] 0 0 ≠ 0 →
      |entry (deltas [[(0 : ℝ)], [0]] [[Real.log 4], [0]] [[(1 : ℝ)], [1]] [[(1 : ℝ)], [-2]]
          [[(0 : ℝ)], [0]] [(0 : ℝ)] (some ((1 : ℝ) : EReal))) 0 0| <
        |entry (deltas [[(0 : ℝ)], [0]] [[Real.log 4], [0]] [[(1 : ℝ)], [1]] [[(1 : ℝ)], [-2]]
          [[(0 : ℝ)], [0]] [(0 : ℝ)] (some ((2 : ℝ) : EReal))) 0 0|) :=
  clip_shrinks_step_delta [[(0 : ℝ)], [0]] [[Real.log 4], [0]] [[(1 : ℝ)], [1]]
    [[(1 : ℝ)], [-2]] [[(0 : ℝ)], [0]] [(0 : ℝ)] 2 1 0 0 2 1
    rfl rfl rfl rfl rfl Nat.zero_lt_two
    rfl rfl rfl rfl rfl rfl
    Nat.one_pos one_pos one_lt_two
    (by norm_num [entry, rhos, log_rhos, sub2, map2arr, map2D, Real.exp_log])

/-- C10: if the value estimates are an exact fixed point of the one-step
backup (the TD residual array is identically zero), then for any
log-probabilities and any clip thresholds `vs = values` and
`pg_advantages = 0` everywhere. -/
theorem fixed_point_targets (bl tl ds rs vals : Arr) (boot : Row) (c₁ c₂ : Option EReal)
    (T B : ℕ)
    (hbl : bl.length = T) (htl : tl.length = T) (hds : ds.length = T)
    (_hrs : rs.length = T) (hvals : vals.length = T)
    (hblr : ∀ r ∈ bl, r.length = B) (htlr : ∀ r ∈ tl, r.length = B)
    (hdsr : ∀ r ∈ ds, r.length = B) (_hrsr : ∀ r ∈ rs, r.length = B)
    (hvalsr : ∀ r ∈ vals, r.length = B) (hboot : boot.length = B)
    (hfix : sub2 (add2 rs (mul2 ds (values_t_plus_1 vals boot))) vals
      = List.replicate T (List.replicate B 0)) :
    (from_importance_weights bl tl ds rs vals boot c₁ c₂).vs = vals ∧
    (from_importance_weights bl tl ds rs vals boot c₁ c₂).pg_advantages
      = List.replicate T (List.replicate B 0) := by
  have hclipL : (clipped_rhos bl tl c₁).length = T := by
    rw [clipped_rhos_length, htl, hbl, min_self]
  have hdel : deltas bl tl ds rs vals boot c₁ = List.replicate T (List.replicate B 0) := by
    simp only [deltas]
    rw [hfix]
    exact mul2_zeros_right _ T B hclipL (rows_clipped_rhos bl tl c₁ B hblr htlr)
  have hcsL : (cs bl tl).length = T := by rw [cs_length, htl, hbl, min_self]
  have hscan : vs_minus_v_xs bl tl ds rs vals boot c₁
      = List.replicate T (List.replicate B 0) := by
    simp only [vs_minus_v_xs]
    rw [hdel, hboot]
    exact scanBack_zeros T ds (cs bl tl) B hds hcsL hdsr (rows_cs bl tl B hblr htlr)
  have hvs : vs bl tl ds rs vals boot c₁ = vals := by
    simp only [vs]
    rw [hscan]
    exact add2_zeros_left vals T B hvals hvalsr
  refine ⟨hvs, ?_⟩
  show pg_advantages bl tl ds rs vals boot c₁ c₂ = _
  simp only [pg_advantages, vs_t_plus_1]
  rw [hvs]
  show mul2 (clipped_pg_rhos bl tl c₂)
    (sub2 (add2 rs (mul2 ds (values_t_plus_1 vals boot))) vals) = _
  rw [hfix]
  exact mul2_zeros_right _ T B (by rw [clipped_pg_rhos_length, htl, hbl, min_self])
    (rows_clipped_pg_rhos bl tl c₂ B hblr htlr)

/-- C10 witness: the fixed-point theorem applied at a concrete input whose
TD residual is zero (`r = 0`, `γ = 1`, `v = vb = 2`). -/
theorem fixed_point_targets_witness :
    (from_importance_weights [[(0 : ℝ)]] [[(0 : ℝ)]] [[(1 : ℝ)]] [[(0 : ℝ)]] [[(2 : ℝ)]]
        [(2 : ℝ)] (some ((5 : ℝ) : EReal)) none).vs = [[(2 : ℝ)]] ∧
    (from_importance_weights [[(0 : ℝ)]] [[(0 : ℝ)]] [[(1 : ℝ)]] [[(0 : ℝ)]] [[(2 : ℝ)]]
        [(2 : ℝ)] (some ((5 : ℝ) : EReal)) none).pg_advantages
      = List.replicate 1 (List.replicate 1 0) :=
  fixed_point_targets [[(0 : ℝ)]] [[(0 : ℝ)]] [[(1 : ℝ)]] [[(0 : ℝ)]] [[(2 : ℝ)]] [(2 : ℝ)]
    (some ((5 : ℝ) : EReal)) none 1 1 rfl rfl rfl rfl rfl
    (by simp) (by simp) (by simp) (by simp) (by simp) rfl
    (by norm_num [sub2, add2, mul2, map2arr, values_t_plus_1, List.replicate])

end
